import Mathlib

/-!
Shallow embedding of the pairwise-iteration adaptors of `cpptricks`
(`PairwiseIterator::internal_pairs` and `PairwiseIterator::cartesian_product`).

Sequences are modelled as `List ℤ`; an iterator into a sequence of length `n`
is modelled as an integer index (`0` = first element, `n` = one-past-the-end),
so that `std::next` / `std::prev` become `+ 1` / `- 1` on `ℤ` (also on the
degenerate inputs where the C++ iterator arithmetic is undefined behaviour).
`size_t` arithmetic is modelled as arithmetic modulo `2 ^ 64`.
-/

namespace PairwiseIterator

/-- Width modulus of `size_t` (64-bit platform). -/
def SIZE_T_MOD : ℕ := 2 ^ 64

/-- Model of the `size_t` subexpression `vec.size() - 1`: unsigned subtraction
of `1`, wrapping at zero. -/
def size_t_sub_one (n : ℕ) : ℕ := (n % SIZE_T_MOD + (SIZE_T_MOD - 1)) % SIZE_T_MOD

/-- Model of `internal_pairs::size`, namely `vec.size() * (vec.size() - 1) / 2`
evaluated entirely in `size_t` arithmetic, for a sequence of length `n`. -/
def ipSize (n : ℕ) : ℕ := n % SIZE_T_MOD * size_t_sub_one n % SIZE_T_MOD / 2

/-- State of `internal_pairs::iterator`: the stored copy `_end` of the
sequence's one-past-the-end locator, and the two element locators `i`, `j`. -/
structure IpIterator where
  _end : ℤ
  i : ℤ
  j : ℤ
  deriving Repr, DecidableEq

/-- Model of `internal_pairs::iterator::operator!=`:
`(i != other.i) or (j != other.j)` (the `_end` field is not compared). -/
def IpIterator.ne (a b : IpIterator) : Bool := (a.i != b.i) || (a.j != b.j)

/-- Model of `internal_pairs::iterator::operator++`:
`if (++j == _end) j = std::next(++i);`. -/
def IpIterator.succ (s : IpIterator) : IpIterator :=
  if s.j + 1 = s._end then ⟨s._end, s.i + 1, s.i + 2⟩ else ⟨s._end, s.i, s.j + 1⟩

/-- Model of `internal_pairs::begin()` for a sequence of length `n`:
`iterator(vec.end(), vec.begin(), std::next(vec.begin()))`. -/
def ipBegin (n : ℕ) : IpIterator := ⟨(n : ℤ), 0, 1⟩

/-- Model of `internal_pairs::end()` for a sequence of length `n`:
`iterator(vec.end(), std::prev(vec.end()), vec.end())`. -/
def ipEnd (n : ℕ) : IpIterator := ⟨(n : ℤ), (n : ℤ) - 1, (n : ℤ)⟩

/-- `k` applications of `internal_pairs::iterator::operator++`. -/
def ipIter : ℕ → IpIterator → IpIterator
  | 0, s => s
  | k + 1, s => ipIter k s.succ

/-- Index pairs `(i, j)` visited by `k` unit advances of an
`internal_pairs::iterator` starting at `s` (the pair at `s` included). -/
def ipTrace : ℕ → IpIterator → List (ℤ × ℤ)
  | 0, _ => []
  | k + 1, s => (s.i, s.j) :: ipTrace k s.succ

/-- Dereference of a single element locator `k` in a sequence `xs`
(`operator*` of the underlying iterator); only in-range locators are ever
dereferenced by the adaptors, out-of-range reads default to `0`. -/
def elemAt (xs : List ℤ) (k : ℤ) : ℤ := xs.getD k.toNat 0

/-- Dereference of an index pair, modelling `operator*` of either adaptor:
the pair-view (element of `xs1` at the first locator, element of `xs2` at the
second locator); for `internal_pairs` both locators point into the same
sequence (`xs1 = xs2`). -/
def derefPair (xs1 xs2 : List ℤ) (p : ℤ × ℤ) : ℤ × ℤ := (elemAt xs1 p.1, elemAt xs2 p.2)

/-- Model of assigning `v` through the first component of the pair-view
`*it` (a mutable reference to the sequence element at locator `i`): the
underlying sequence is updated in place at index `i`. -/
def assignFirst (xs : List ℤ) (s : IpIterator) (v : ℤ) : List ℤ := xs.set s.i.toNat v

/-- Number of pairs in the last `e` rows of the triangle:
`triCount e = e + (e-1) + ⋯ + 1`. -/
def triCount : ℕ → ℕ
  | 0 => 0
  | e + 1 => (e + 1) + triCount e

/-- Row `a` of the triangle over a sequence of length `n`:
the pairs `(a, a+1), (a, a+2), …, (a, n-1)`. -/
def triRow (n a : ℕ) : List (ℤ × ℤ) :=
  (List.range' (a + 1) (n - a - 1)).map fun b : ℕ => ((a : ℤ), (b : ℤ))

/-- Row-major triangular index pairs over a sequence of length `n`:
`(0,1),(0,2),…,(0,n-1),(1,2),…,(n-2,n-1)`. -/
def triPairs (n : ℕ) : List (ℤ × ℤ) :=
  (List.range n).flatMap (triRow n)

/-- Row `a` of the cartesian product with a second sequence of length `n2`:
the pairs `(a, 0), (a, 1), …, (a, n2-1)`. -/
def cpRow (n2 a : ℕ) : List (ℤ × ℤ) :=
  (List.range n2).map fun b : ℕ => ((a : ℤ), (b : ℤ))

/-- Row-major product index pairs, second index varying fastest:
`(0,0),(0,1),…,(0,n2-1),(1,0),…,(n1-1,n2-1)`. -/
def prodPairs (n1 n2 : ℕ) : List (ℤ × ℤ) :=
  (List.range n1).flatMap (cpRow n2)

/-- State of `cartesian_product::iterator`: the moving locators `pos1`, `pos2`
and the stored bounds `last1`, `first2`, `last2`. -/
structure CpIterator where
  pos1 : ℤ
  last1 : ℤ
  pos2 : ℤ
  first2 : ℤ
  last2 : ℤ
  deriving Repr, DecidableEq

/-- Model of `cartesian_product::iterator::iterator(first1, last1, first2, last2)`:
`pos1 = first1`, `pos2 = first2`, bounds stored verbatim. -/
def cpIterMk (first1 last1 first2 last2 : ℤ) : CpIterator :=
  ⟨first1, last1, first2, first2, last2⟩

/-- Model of `cartesian_product::iterator::operator!=`:
`(pos1 != other.pos1) or (pos2 != other.pos2)` (bounds are not compared). -/
def CpIterator.ne (a b : CpIterator) : Bool := (a.pos1 != b.pos1) || (a.pos2 != b.pos2)

/-- Model of `cartesian_product::iterator::operator++`:
`if (++pos2 == last2) { pos2 = first2; pos1++; if (pos1 == last1) pos2 = last2; }`. -/
def CpIterator.succ (s : CpIterator) : CpIterator :=
  if s.pos2 + 1 = s.last2 then
    if s.pos1 + 1 = s.last1 then ⟨s.pos1 + 1, s.last1, s.last2, s.first2, s.last2⟩
    else ⟨s.pos1 + 1, s.last1, s.first2, s.first2, s.last2⟩
  else ⟨s.pos1, s.last1, s.pos2 + 1, s.first2, s.last2⟩

/-- The `cartesian_product` adaptor object: its stored `_begin` and `_end`
iterators. -/
structure cartesian_product where
  _begin : CpIterator
  _end : CpIterator

/-- Model of `cartesian_product::size`:
`std::distance(_begin.pos1, _begin.last1) * std::distance(_begin.first2, _begin.last2)`
returned as a `size_t`. -/
def cartesian_product.size (c : cartesian_product) : ℕ :=
  ((c._begin.last1 - c._begin.pos1) * (c._begin.last2 - c._begin.first2)).toNat

/-- Model of the `cartesian_product` constructor over sequences of lengths
`n1` and `n2` (boundary iterators `first1 = 0`, `last1 = n1`, `first2 = 0`,
`last2 = n2`): builds `_begin` and `_end`, then forces `_begin = _end` when
`size() == 0`. -/
def mkCartesian (n1 n2 : ℕ) : cartesian_product :=
  let b := cpIterMk 0 (n1 : ℤ) 0 (n2 : ℤ)
  let e := cpIterMk (n1 : ℤ) (n1 : ℤ) (n2 : ℤ) (n2 : ℤ)
  if cartesian_product.size ⟨b, e⟩ = 0 then ⟨e, e⟩ else ⟨b, e⟩

/-- `k` applications of `cartesian_product::iterator::operator++`. -/
def cpIter : ℕ → CpIterator → CpIterator
  | 0, s => s
  | k + 1, s => cpIter k s.succ

/-- Index pairs `(pos1, pos2)` visited by `k` unit advances of a
`cartesian_product::iterator` starting at `s` (the pair at `s` included). -/
def cpTrace : ℕ → CpIterator → List (ℤ × ℤ)
  | 0, _ => []
  | k + 1, s => (s.pos1, s.pos2) :: cpTrace k s.succ

/-! Iteration algebra: splitting a run of unit advances. -/

theorem ipIter_succ (k : ℕ) (s : IpIterator) : ipIter (k + 1) s = ipIter k s.succ := rfl

theorem ipTrace_succ (k : ℕ) (s : IpIterator) :
    ipTrace (k + 1) s = (s.i, s.j) :: ipTrace k s.succ := rfl

theorem cpIter_succ (k : ℕ) (s : CpIterator) : cpIter (k + 1) s = cpIter k s.succ := rfl

theorem cpTrace_succ (k : ℕ) (s : CpIterator) :
    cpTrace (k + 1) s = (s.pos1, s.pos2) :: cpTrace k s.succ := rfl

theorem ipIter_add (a b : ℕ) (s : IpIterator) :
    ipIter (a + b) s = ipIter b (ipIter a s) := by
  induction a generalizing s with
  | zero => rw [Nat.zero_add]; rfl
  | succ a ih =>
    have h : a + 1 + b = (a + b) + 1 := by omega
    rw [h]
    simp only [ipIter]
    exact ih s.succ

theorem ipIter_succ_right (k : ℕ) (s : IpIterator) :
    ipIter (k + 1) s = (ipIter k s).succ := by
  induction k generalizing s with
  | zero => rfl
  | succ k ih =>
    simp only [ipIter]
    exact ih s.succ

theorem ipTrace_add (a b : ℕ) (s : IpIterator) :
    ipTrace (a + b) s = ipTrace a s ++ ipTrace b (ipIter a s) := by
  induction a generalizing s with
  | zero => rw [Nat.zero_add]; rfl
  | succ a ih =>
    have h : a + 1 + b = (a + b) + 1 := by omega
    rw [h]
    simp only [ipTrace, ipIter]
    rw [ih s.succ]
    rfl

theorem cpIter_add (a b : ℕ) (s : CpIterator) :
    cpIter (a + b) s = cpIter b (cpIter a s) := by
  induction a generalizing s with
  | zero => rw [Nat.zero_add]; rfl
  | succ a ih =>
    have h : a + 1 + b = (a + b) + 1 := by omega
    rw [h]
    simp only [cpIter]
    exact ih s.succ

theorem cpIter_succ_right (k : ℕ) (s : CpIterator) :
    cpIter (k + 1) s = (cpIter k s).succ := by
  induction k generalizing s with
  | zero => rfl
  | succ k ih =>
    simp only [cpIter]
    exact ih s.succ

theorem cpTrace_add (a b : ℕ) (s : CpIterator) :
    cpTrace (a + b) s = cpTrace a s ++ cpTrace b (cpIter a s) := by
  induction a generalizing s with
  | zero => rw [Nat.zero_add]; rfl
  | succ a ih =>
    have h : a + 1 + b = (a + b) + 1 := by omega
    rw [h]
    simp only [cpTrace, cpIter]
    rw [ih s.succ]
    rfl

/-! Unfolding lemmas for the two `operator!=` models. -/

theorem ipNe_false_iff (a b : IpIterator) :
    IpIterator.ne a b = false ↔ a.i = b.i ∧ a.j = b.j := by
  simp [IpIterator.ne]

theorem ipNe_true_iff (a b : IpIterator) :
    IpIterator.ne a b = true ↔ a.i ≠ b.i ∨ a.j ≠ b.j := by
  simp [IpIterator.ne]

theorem cpNe_false_iff (a b : CpIterator) :
    CpIterator.ne a b = false ↔ a.pos1 = b.pos1 ∧ a.pos2 = b.pos2 := by
  simp [CpIterator.ne]

theorem cpNe_true_iff (a b : CpIterator) :
    CpIterator.ne a b = true ↔ a.pos1 ≠ b.pos1 ∨ a.pos2 ≠ b.pos2 := by
  simp [CpIterator.ne]

/-! One row of the triangular enumeration. -/

theorem ip_row (n : ℕ) (i : ℤ) :
    ∀ d j : ℕ, j + d + 1 = n →
      ipTrace (d + 1) ⟨(n : ℤ), i, (j : ℤ)⟩ =
        (List.range' j (d + 1)).map (fun b : ℕ => (i, (b : ℤ))) ∧
      ipIter (d + 1) ⟨(n : ℤ), i, (j : ℤ)⟩ = ⟨(n : ℤ), i + 1, i + 2⟩ := by
  intro d
  induction d with
  | zero =>
    intro j hj
    have hj' : (j : ℤ) + 1 = (n : ℤ) := by omega
    constructor
    · simp [ipTrace]
    · rw [ipIter_succ]
      show IpIterator.succ ⟨(n : ℤ), i, (j : ℤ)⟩ = _
      simp only [IpIterator.succ]
      rw [if_pos hj']
  | succ d ih =>
    intro j hj
    have hne : (j : ℤ) + 1 ≠ (n : ℤ) := by omega
    have hcast : ((j + 1 : ℕ) : ℤ) = (j : ℤ) + 1 := by push_cast; ring
    have hsucc : IpIterator.succ ⟨(n : ℤ), i, (j : ℤ)⟩ =
        ⟨(n : ℤ), i, ((j + 1 : ℕ) : ℤ)⟩ := by
      rw [hcast]
      simp only [IpIterator.succ]
      rw [if_neg hne]
    obtain ⟨ht, hi⟩ := ih (j + 1) (by omega)
    constructor
    · rw [ipTrace_succ, hsucc, ht]
      conv_rhs => rw [List.range'_succ, List.map_cons]
    · rw [ipIter_succ, hsucc, hi]

theorem ip_full_row (n : ℕ) (i : ℤ) (j : ℕ) (hj : j < n) :
    ipTrace (n - j) ⟨(n : ℤ), i, (j : ℤ)⟩ =
      (List.range' j (n - j)).map (fun b : ℕ => (i, (b : ℤ))) ∧
    ipIter (n - j) ⟨(n : ℤ), i, (j : ℤ)⟩ = ⟨(n : ℤ), i + 1, i + 2⟩ := by
  obtain ⟨ht, hi⟩ := ip_row n i (n - j - 1) j (by omega)
  have hc : n - j - 1 + 1 = n - j := by omega
  rw [hc] at ht hi
  exact ⟨ht, hi⟩

theorem two_mul_triCount (e : ℕ) : 2 * triCount e = e * (e + 1) := by
  induction e with
  | zero => rfl
  | succ e ih =>
    simp only [triCount, Nat.mul_add, ih]
    ring

theorem triCount_eq (e : ℕ) : triCount e = e * (e + 1) / 2 := by
  have h := two_mul_triCount e
  omega

/-! All remaining rows of the triangular enumeration, from row `i` down to the
last row `n - 2`, ending exactly at the `end()` sentinel. -/

theorem ip_rows (n : ℕ) :
    ∀ e i : ℕ, i + e + 1 = n →
      ipTrace (triCount e) ⟨(n : ℤ), (i : ℤ), (i : ℤ) + 1⟩ =
        (List.range' i e).flatMap (triRow n) ∧
      ipIter (triCount e) ⟨(n : ℤ), (i : ℤ), (i : ℤ) + 1⟩ = ipEnd n := by
  intro e
  induction e with
  | zero =>
    intro i hi
    refine ⟨rfl, ?_⟩
    show (⟨(n : ℤ), (i : ℤ), (i : ℤ) + 1⟩ : IpIterator) = ipEnd n
    simp only [ipEnd, IpIterator.mk.injEq]
    refine ⟨trivial, by omega, by omega⟩
  | succ e ih =>
    intro i hi
    have hcast : ((i + 1 : ℕ) : ℤ) = (i : ℤ) + 1 := by push_cast; ring
    obtain ⟨ht, hrow⟩ := ip_full_row n (i : ℤ) (i + 1) (by omega)
    have hc : n - (i + 1) = e + 1 := by omega
    have hc2 : n - i - 1 = e + 1 := by omega
    rw [hc, hcast] at ht hrow
    obtain ⟨ht2, hi2⟩ := ih (i + 1) (by omega)
    have hstate : (⟨(n : ℤ), (i : ℤ) + 1, (i : ℤ) + 2⟩ : IpIterator) =
        ⟨(n : ℤ), ((i + 1 : ℕ) : ℤ), ((i + 1 : ℕ) : ℤ) + 1⟩ := by
      rw [hcast]
      simp only [IpIterator.mk.injEq]
      refine ⟨trivial, trivial, by ring⟩
    have hsplit : triCount (e + 1) = (e + 1) + triCount e := rfl
    constructor
    · rw [hsplit, ipTrace_add, ht, hrow, hstate, ht2]
      conv_rhs => rw [List.range'_succ, List.flatMap_cons]
      simp only [triRow, hc2]
    · rw [hsplit, ipIter_add, hrow, hstate, hi2]

/-! One row of the cartesian-product enumeration. -/

theorem cp_row (n1 n2 : ℕ) (a : ℤ) :
    ∀ d b : ℕ, b + d + 1 = n2 →
      cpTrace (d + 1) ⟨a, (n1 : ℤ), (b : ℤ), 0, (n2 : ℤ)⟩ =
        (List.range' b (d + 1)).map (fun t : ℕ => (a, (t : ℤ))) ∧
      cpIter (d + 1) ⟨a, (n1 : ℤ), (b : ℤ), 0, (n2 : ℤ)⟩ =
        (if a + 1 = (n1 : ℤ) then ⟨a + 1, (n1 : ℤ), (n2 : ℤ), 0, (n2 : ℤ)⟩
         else ⟨a + 1, (n1 : ℤ), 0, 0, (n2 : ℤ)⟩) := by
  intro d
  induction d with
  | zero =>
    intro b hb
    have hb' : (b : ℤ) + 1 = (n2 : ℤ) := by omega
    constructor
    · simp [cpTrace]
    · rw [cpIter_succ]
      show CpIterator.succ ⟨a, (n1 : ℤ), (b : ℤ), 0, (n2 : ℤ)⟩ = _
      simp only [CpIterator.succ]
      rw [if_pos hb']
  | succ d ih =>
    intro b hb
    have hne : (b : ℤ) + 1 ≠ (n2 : ℤ) := by omega
    have hcast : ((b + 1 : ℕ) : ℤ) = (b : ℤ) + 1 := by push_cast; ring
    have hsucc : CpIterator.succ ⟨a, (n1 : ℤ), (b : ℤ), 0, (n2 : ℤ)⟩ =
        ⟨a, (n1 : ℤ), ((b + 1 : ℕ) : ℤ), 0, (n2 : ℤ)⟩ := by
      rw [hcast]
      simp only [CpIterator.succ]
      rw [if_neg hne]
    obtain ⟨ht, hi⟩ := ih (b + 1) (by omega)
    constructor
    · rw [cpTrace_succ, hsucc, ht]
      conv_rhs => rw [List.range'_succ, List.map_cons]
    · rw [cpIter_succ, hsucc, hi]

theorem cp_full_row (n1 n2 : ℕ) (hn2 : 1 ≤ n2) (a : ℤ) :
    cpTrace n2 ⟨a, (n1 : ℤ), 0, 0, (n2 : ℤ)⟩ =
      (List.range n2).map (fun t : ℕ => (a, (t : ℤ))) ∧
    cpIter n2 ⟨a, (n1 : ℤ), 0, 0, (n2 : ℤ)⟩ =
      (if a + 1 = (n1 : ℤ) then ⟨a + 1, (n1 : ℤ), (n2 : ℤ), 0, (n2 : ℤ)⟩
       else ⟨a + 1, (n1 : ℤ), 0, 0, (n2 : ℤ)⟩) := by
  obtain ⟨ht, hi⟩ := cp_row n1 n2 a (n2 - 1) 0 (by omega)
  simp only [Nat.cast_zero] at ht hi
  have hc : n2 - 1 + 1 = n2 := by omega
  rw [hc] at ht hi
  rw [List.range_eq_range']
  exact ⟨ht, hi⟩

/-! All remaining rows of the cartesian-product enumeration, from outer index
`a` down to the last row `n1 - 1`, ending in the state whose moving cursors
equal those of the `end()` sentinel. -/

theorem cp_rows (n1 n2 : ℕ) (hn2 : 1 ≤ n2) :
    ∀ d a : ℕ, a + d + 1 = n1 →
      cpTrace ((d + 1) * n2) ⟨(a : ℤ), (n1 : ℤ), 0, 0, (n2 : ℤ)⟩ =
        (List.range' a (d + 1)).flatMap (cpRow n2) ∧
      cpIter ((d + 1) * n2) ⟨(a : ℤ), (n1 : ℤ), 0, 0, (n2 : ℤ)⟩ =
        ⟨(n1 : ℤ), (n1 : ℤ), (n2 : ℤ), 0, (n2 : ℤ)⟩ := by
  intro d
  induction d with
  | zero =>
    intro a ha
    have ha' : (a : ℤ) + 1 = (n1 : ℤ) := by omega
    obtain ⟨ht, hi⟩ := cp_full_row n1 n2 hn2 (a : ℤ)
    rw [if_pos ha'] at hi
    rw [ha'] at hi
    have h1 : 1 * n2 = n2 := by omega
    constructor
    · rw [h1, ht, List.range'_one, List.flatMap_cons, List.flatMap_nil, List.append_nil, cpRow]
    · rw [h1, hi]
  | succ d ih =>
    intro a ha
    have hne : (a : ℤ) + 1 ≠ (n1 : ℤ) := by omega
    have hcast : ((a + 1 : ℕ) : ℤ) = (a : ℤ) + 1 := by push_cast; ring
    obtain ⟨ht, hi⟩ := cp_full_row n1 n2 hn2 (a : ℤ)
    rw [if_neg hne, ← hcast] at hi
    obtain ⟨ht2, hi2⟩ := ih (a + 1) (by omega)
    have hsplit : (d + 1 + 1) * n2 = n2 + (d + 1) * n2 := by ring
    constructor
    · rw [hsplit, cpTrace_add, ht, hi, ht2]
      conv_rhs => rw [List.range'_succ, List.flatMap_cons]
      rw [cpRow]
    · rw [hsplit, cpIter_add, hi, hi2]

/-! The constructor of `cartesian_product`. -/

theorem mkCartesian_end (n1 n2 : ℕ) :
    (mkCartesian n1 n2)._end = ⟨(n1 : ℤ), (n1 : ℤ), (n2 : ℤ), (n2 : ℤ), (n2 : ℤ)⟩ := by
  simp only [mkCartesian]
  split
  · rfl
  · rfl

theorem mkCartesian_begin_pos (n1 n2 : ℕ) (h1 : 1 ≤ n1) (h2 : 1 ≤ n2) :
    (mkCartesian n1 n2)._begin = ⟨0, (n1 : ℤ), 0, 0, (n2 : ℤ)⟩ := by
  simp only [mkCartesian]
  split
  · next hzero =>
    exfalso
    simp only [cartesian_product.size, cpIterMk] at hzero
    rw [sub_zero, sub_zero, ← Nat.cast_mul, Int.toNat_natCast] at hzero
    exact absurd hzero (Nat.mul_ne_zero (by omega) (by omega))
  · rfl

/-! Auxiliary facts for the degenerate and boundary cases. -/

theorem ipIter_i_nonneg (k : ℕ) (s : IpIterator) (h : 0 ≤ s.i) : 0 ≤ (ipIter k s).i := by
  induction k generalizing s with
  | zero => exact h
  | succ k ih =>
    rw [ipIter_succ]
    apply ih
    simp only [IpIterator.succ]
    split
    · simp only
      omega
    · simpa using h

theorem triPairs_getLast (n : ℕ) (hn : 2 ≤ n) :
    (triPairs n).getLast? = some ((n : ℤ) - 2, (n : ℤ) - 1) := by
  have e1 : List.range n = List.range (n - 1) ++ [n - 1] := by
    conv_lhs => rw [show n = (n - 1) + 1 from by omega]
    rw [List.range_succ]
  have e2 : List.range (n - 1) = List.range (n - 2) ++ [n - 2] := by
    conv_lhs => rw [show n - 1 = (n - 2) + 1 from by omega]
    rw [List.range_succ]
  have hrow1 : triRow n (n - 1) = [] := by
    simp only [triRow, show n - (n - 1) - 1 = 0 from by omega]
    rfl
  have hrow2 : triRow n (n - 2) = [((n : ℤ) - 2, (n : ℤ) - 1)] := by
    simp only [triRow, show n - (n - 2) - 1 = 1 from by omega, List.range'_one,
      List.map_cons, List.map_nil]
    have c1 : ((n - 2 : ℕ) : ℤ) = (n : ℤ) - 2 := by omega
    have c2 : ((n - 2 + 1 : ℕ) : ℤ) = (n : ℤ) - 1 := by omega
    rw [c1, c2]
  rw [triPairs, e1, List.flatMap_append, e2, List.flatMap_append]
  simp [hrow1, hrow2, List.getLast?_concat]

theorem triPairs_eq_rows (n : ℕ) (hn : 1 ≤ n) :
    triPairs n = (List.range' 0 (n - 1)).flatMap (triRow n) := by
  have hr : List.range' 0 n = List.range' 0 (n - 1) ++ List.range' (n - 1) 1 := by
    have h := List.range'_append_1 0 (n - 1) 1
    rw [Nat.zero_add] at h
    rw [show 1 + (n - 1) = n from by omega] at h
    exact h.symm
  have hrow1 : triRow n (n - 1) = [] := by
    simp only [triRow, show n - (n - 1) - 1 = 0 from by omega]
    rfl
  rw [triPairs, List.range_eq_range', hr, List.flatMap_append]
  simp [hrow1]

/-- C1: for every sequence of length `n ≥ 2`, enumerating the internal-pairs
adaptor from `begin()` by repeated unit advances visits exactly the index
pairs `(i, j)`, `i < j`, in row-major triangular order
`(0,1),(0,2),…,(0,n-1),(1,2),…,(n-2,n-1)` (so the pair-views are the
corresponding element pairs); the first dereferenced pair is `(0, 1)`, the
last pair before `end()` is `(n-2, n-1)`, and advancing `n(n-1)/2` times from
`begin()` lands exactly on `end()`. -/
theorem internal_pairs_triangular_enumeration (n : ℕ) (hn : 2 ≤ n) :
    ipTrace (n * (n - 1) / 2) (ipBegin n) = triPairs n ∧
    (ipTrace (n * (n - 1) / 2) (ipBegin n)).head? = some (0, 1) ∧
    (ipTrace (n * (n - 1) / 2) (ipBegin n)).getLast? = some ((n : ℤ) - 2, (n : ℤ) - 1) ∧
    IpIterator.ne (ipIter (n * (n - 1) / 2) (ipBegin n)) (ipEnd n) = false ∧
    ∀ xs : List ℤ,
      (ipTrace (n * (n - 1) / 2) (ipBegin n)).map (derefPair xs xs) =
        (triPairs n).map (derefPair xs xs) := by
  obtain ⟨ht, hi⟩ := ip_rows n (n - 1) 0 (by omega)
  have hb : ipBegin n = ⟨(n : ℤ), ((0 : ℕ) : ℤ), ((0 : ℕ) : ℤ) + 1⟩ := by
    simp [ipBegin]
  have hcount : triCount (n - 1) = n * (n - 1) / 2 := by
    rw [triCount_eq, show n - 1 + 1 = n from by omega, Nat.mul_comm]
  have hmain : ipTrace (n * (n - 1) / 2) (ipBegin n) = triPairs n := by
    rw [hb, ← hcount, ht, triPairs_eq_rows n (by omega)]
  have hone : 1 ≤ n * (n - 1) / 2 := by
    have h2 : 2 * 1 ≤ n * (n - 1) := Nat.mul_le_mul (by omega) (by omega)
    omega
  refine ⟨hmain, ?_, ?_, ?_, ?_⟩
  · obtain ⟨m, hm⟩ : ∃ m, n * (n - 1) / 2 = m + 1 := ⟨n * (n - 1) / 2 - 1, by omega⟩
    rw [hm, ipTrace_succ]
    simp [ipBegin]
  · rw [hmain, triPairs_getLast n hn]
  · rw [hb, ← hcount, hi]
    simp [IpIterator.ne]
  · intro xs
    rw [hmain]

/-- Witness for C1 at the concrete sequence length `n = 4` used by the
repository's own doctest. -/
theorem internal_pairs_triangular_enumeration_witness :
    2 ≤ 4 ∧
    (ipTrace (4 * (4 - 1) / 2) (ipBegin 4) = triPairs 4 ∧
     (ipTrace (4 * (4 - 1) / 2) (ipBegin 4)).head? = some (0, 1) ∧
     (ipTrace (4 * (4 - 1) / 2) (ipBegin 4)).getLast? = some ((4 : ℤ) - 2, (4 : ℤ) - 1) ∧
     IpIterator.ne (ipIter (4 * (4 - 1) / 2) (ipBegin 4)) (ipEnd 4) = false ∧
     ∀ xs : List ℤ,
       (ipTrace (4 * (4 - 1) / 2) (ipBegin 4)).map (derefPair xs xs) =
         (triPairs 4).map (derefPair xs xs)) :=
  ⟨by norm_num, internal_pairs_triangular_enumeration 4 (by norm_num)⟩

/-- C3, evaluated at the failing input `n = 0` (empty sequence): `size()`
returns `0`, but no number of unit advances ever takes `begin()` to a
position comparing equal to `end()` — the advance-count invariant fails. -/
theorem internal_pairs_empty_enumeration_never_reaches_end :
    ipSize 0 = 0 ∧
    ∀ k : ℕ, IpIterator.ne (ipIter k (ipBegin 0)) (ipEnd 0) = true := by
  refine ⟨by decide, ?_⟩
  intro k
  have h := ipIter_i_nonneg k (ipBegin 0) (by simp [ipBegin])
  rw [ipNe_true_iff]
  left
  simp only [ipEnd, Nat.cast_zero]
  omega

/-- C5, evaluated at the boundary lengths: for `n = 1` the adaptor's
`begin()` compares equal to `end()` as claimed, but for `n = 0` (empty
sequence) `begin()` and `end()` compare unequal. -/
theorem internal_pairs_begin_vs_end_small_n :
    IpIterator.ne (ipBegin 0) (ipEnd 0) = true ∧
    IpIterator.ne (ipBegin 1) (ipEnd 1) = false := by decide

/-- C6: for both adaptors, two positions compare equal (their `operator!=`
returns `false`) exactly when both underlying cursors match — `i` and `j`
for internal-pairs, `pos1` and `pos2` for cartesian-product. -/
theorem position_equality_requires_both_cursors :
    (∀ a b : IpIterator, IpIterator.ne a b = false ↔ a.i = b.i ∧ a.j = b.j) ∧
    (∀ a b : CpIterator, CpIterator.ne a b = false ↔ a.pos1 = b.pos1 ∧ a.pos2 = b.pos2) :=
  ⟨ipNe_false_iff, cpNe_false_iff⟩

/-- C7: assigning a value through the first component of a pair-view writes
it to the underlying sequence at index `i`, keeps the length, and leaves
every other element unchanged. -/
theorem pair_view_write_through (xs : List ℤ) (s : IpIterator) (v : ℤ)
    (h0 : 0 ≤ s.i) (hlt : s.i < (xs.length : ℤ)) :
    (assignFirst xs s v).length = xs.length ∧
    (assignFirst xs s v)[s.i.toNat]? = some v ∧
    ∀ k : ℕ, (k : ℤ) ≠ s.i → (assignFirst xs s v)[k]? = xs[k]? := by
  have hnat : s.i.toNat < xs.length := by omega
  refine ⟨by simp [assignFirst], ?_, ?_⟩
  · simp [assignFirst, List.getElem?_set_self hnat]
  · intro k hk
    have hne : s.i.toNat ≠ k := by omega
    simp [assignFirst, List.getElem?_set_ne hne]

/-- Witness for C7: writing `42` through the first component of the first
pair-view of `[5, 7, 9]` puts `42` at index `0` and leaves index `2`
unchanged. -/
theorem pair_view_write_through_witness :
    (assignFirst [5, 7, 9] (ipBegin 3) 42)[(ipBegin 3).i.toNat]? = some 42 ∧
    (assignFirst [5, 7, 9] (ipBegin 3) 42)[2]? = ([5, 7, 9] : List ℤ)[2]? :=
  ⟨(pair_view_write_through [5, 7, 9] (ipBegin 3) 42 (by decide) (by decide)).2.1,
   (pair_view_write_through [5, 7, 9] (ipBegin 3) 42 (by decide) (by decide)).2.2 2 (by decide)⟩

/-- C8: position equality is reflexive for both adaptors, and two positions
obtained from two calls of `begin()` on the same adaptor compare equal. -/
theorem position_equality_reflexive_and_begin_idempotent :
    (∀ a : IpIterator, IpIterator.ne a a = false) ∧
    (∀ a : CpIterator, CpIterator.ne a a = false) ∧
    (∀ n : ℕ, IpIterator.ne (ipBegin n) (ipBegin n) = false) ∧
    (∀ n1 n2 : ℕ,
      CpIterator.ne ((mkCartesian n1 n2)._begin) ((mkCartesian n1 n2)._begin) = false) := by
  refine ⟨?_, ?_, ?_, ?_⟩ <;> intros <;> simp [IpIterator.ne, CpIterator.ne]

/-- C10: `internal_pairs::size` is evaluated in unsigned 64-bit arithmetic;
at `n = 0` the subexpression `n - 1` wraps to `2^64 - 1` yet the whole
expression still returns `0`, and for `n ≥ 1` with no overflow of the
product the returned value is the exact mathematical `n(n-1)/2`. -/
theorem size_unsigned_wraparound :
    size_t_sub_one 0 = SIZE_T_MOD - 1 ∧
    ipSize 0 = 0 ∧
    ∀ n : ℕ, 1 ≤ n → n * (n - 1) < SIZE_T_MOD → ipSize n = n * (n - 1) / 2 := by
  refine ⟨by decide, by decide, ?_⟩
  intro n h1 hov
  have hM : SIZE_T_MOD = 18446744073709551616 := by norm_num [SIZE_T_MOD]
  have hn : n < SIZE_T_MOD := by
    rcases Nat.lt_or_ge n 2 with h | h
    · omega
    · have hle : n = n * 1 := (Nat.mul_one n).symm
      have : n * 1 ≤ n * (n - 1) := Nat.mul_le_mul_left n (by omega)
      omega
  unfold ipSize size_t_sub_one
  rw [Nat.mod_eq_of_lt hn]
  have hs : (n + (SIZE_T_MOD - 1)) % SIZE_T_MOD = n - 1 := by
    rw [show n + (SIZE_T_MOD - 1) = (n - 1) + SIZE_T_MOD from by omega,
      Nat.add_mod_right, Nat.mod_eq_of_lt (by omega)]
  rw [hs, Nat.mod_eq_of_lt hov]

/-- Witness for C10 at `n = 6`: the unsigned evaluation returns `15`. -/
theorem size_unsigned_wraparound_witness : ipSize 6 = 6 * (6 - 1) / 2 :=
  size_unsigned_wraparound.2.2 6 (by norm_num) (by norm_num [SIZE_T_MOD])

/-- C2: for sequences of lengths `n1, n2 ≥ 1`, enumerating the
cartesian-product adaptor from `begin()` by `n1 * n2` unit advances visits
exactly the ordered index pairs in row-major order with the second index
varying fastest, after which the position compares equal to `end()`;
concretely, for `[0,1,3] × [10,20]` the dereferenced pairs are exactly
`(0,10),(0,20),(1,10),(1,20),(3,10),(3,20)` and a left fold adding the
second components yields `90`. -/
theorem cartesian_product_row_major_enumeration (n1 n2 : ℕ) (h1 : 1 ≤ n1) (h2 : 1 ≤ n2) :
    cpTrace (n1 * n2) ((mkCartesian n1 n2)._begin) = prodPairs n1 n2 ∧
    CpIterator.ne (cpIter (n1 * n2) ((mkCartesian n1 n2)._begin))
      ((mkCartesian n1 n2)._end) = false ∧
    (cpTrace ((mkCartesian 3 2).size) ((mkCartesian 3 2)._begin)).map
        (derefPair [0, 1, 3] [10, 20]) =
      [(0, 10), (0, 20), (1, 10), (1, 20), (3, 10), (3, 20)] ∧
    ((cpTrace ((mkCartesian 3 2).size) ((mkCartesian 3 2)._begin)).map
        (derefPair [0, 1, 3] [10, 20])).foldl (fun acc p => acc + p.2) 0 = 90 := by
  obtain ⟨ht, hi⟩ := cp_rows n1 n2 h2 (n1 - 1) 0 (by omega)
  rw [show n1 - 1 + 1 = n1 from by omega] at ht hi
  simp only [Nat.cast_zero] at ht hi
  have hb := mkCartesian_begin_pos n1 n2 h1 h2
  have he := mkCartesian_end n1 n2
  refine ⟨?_, ?_, by decide, by decide⟩
  · rw [hb, ht, prodPairs, List.range_eq_range']
  · rw [hb, hi, he, cpNe_false_iff]
    exact ⟨rfl, rfl⟩

/-- Witness for C2 at the repository's own doctest instance `3 × 2`. -/
theorem cartesian_product_row_major_enumeration_witness :
    1 ≤ 3 ∧ 1 ≤ 2 ∧ cpTrace (3 * 2) ((mkCartesian 3 2)._begin) = prodPairs 3 2 :=
  ⟨by norm_num, by norm_num,
   (cartesian_product_row_major_enumeration 3 2 (by norm_num) (by norm_num)).1⟩

/-- C4: the cartesian-product adaptor's `size()` returns `n1 * n2`, and when
either sequence is empty the constructor's guard forces `begin()` to compare
equal to `end()`, so an enumeration loop executes its body zero times. -/
theorem cartesian_product_size_and_empty_guard (n1 n2 : ℕ) :
    (mkCartesian n1 n2).size = n1 * n2 ∧
    ((n1 = 0 ∨ n2 = 0) →
      CpIterator.ne ((mkCartesian n1 n2)._begin) ((mkCartesian n1 n2)._end) = false) := by
  have hmul : ((n1 : ℤ) * (n2 : ℤ)).toNat = n1 * n2 := by
    rw [← Nat.cast_mul, Int.toNat_natCast]
  constructor
  · simp only [mkCartesian]
    split
    · next hzero =>
      simp only [cartesian_product.size, cpIterMk] at hzero ⊢
      rw [sub_zero, sub_zero, hmul] at hzero
      rw [sub_self, sub_self, Int.zero_mul, Int.toNat_zero]
      exact hzero.symm
    · next hnz =>
      simp only [cartesian_product.size, cpIterMk]
      rw [sub_zero, sub_zero, hmul]
  · intro h0
    simp only [mkCartesian]
    split
    · simp [CpIterator.ne]
    · next hnz =>
      exfalso
      apply hnz
      simp only [cartesian_product.size, cpIterMk]
      rw [sub_zero, sub_zero, hmul]
      rcases h0 with h | h <;> simp [h]

/-- Witness for C4 at the empty-first-sequence instance `0 × 3`. -/
theorem cartesian_product_size_and_empty_guard_witness :
    (mkCartesian 0 3).size = 0 * 3 ∧
    CpIterator.ne ((mkCartesian 0 3)._begin) ((mkCartesian 0 3)._end) = false :=
  ⟨(cartesian_product_size_and_empty_guard 0 3).1,
   (cartesian_product_size_and_empty_guard 0 3).2 (Or.inl rfl)⟩

/-! The advance step of `cartesian_product::iterator` never changes the
stored bounds. -/

theorem cpSucc_bounds (s : CpIterator) :
    s.succ.last1 = s.last1 ∧ s.succ.first2 = s.first2 ∧ s.succ.last2 = s.last2 := by
  simp only [CpIterator.succ]
  split
  · split
    · exact ⟨rfl, rfl, rfl⟩
    · exact ⟨rfl, rfl, rfl⟩
  · exact ⟨rfl, rfl, rfl⟩

theorem cpIter_bounds (k : ℕ) (s : CpIterator) :
    (cpIter k s).last1 = s.last1 ∧ (cpIter k s).first2 = s.first2 ∧
    (cpIter k s).last2 = s.last2 := by
  induction k generalizing s with
  | zero => exact ⟨rfl, rfl, rfl⟩
  | succ k ih =>
    rw [cpIter_succ]
    obtain ⟨h1, h2, h3⟩ := ih s.succ
    obtain ⟨g1, g2, g3⟩ := cpSucc_bounds s
    exact ⟨h1.trans g1, h2.trans g2, h3.trans g3⟩

/-- States reachable before first comparing equal to the sentinel are either
dereferenceable or exactly the sentinel's cursor pair. -/
theorem cp_reach_inv (n1 n2 : ℕ) (h1 : 1 ≤ n1) (h2 : 1 ≤ n2) :
    ∀ k : ℕ,
      (∀ m : ℕ, m < k →
        CpIterator.ne (cpIter m ⟨0, (n1 : ℤ), 0, 0, (n2 : ℤ)⟩)
          ⟨(n1 : ℤ), (n1 : ℤ), (n2 : ℤ), (n2 : ℤ), (n2 : ℤ)⟩ = true) →
      ((0 ≤ (cpIter k ⟨0, (n1 : ℤ), 0, 0, (n2 : ℤ)⟩).pos1 ∧
        (cpIter k ⟨0, (n1 : ℤ), 0, 0, (n2 : ℤ)⟩).pos1 < (n1 : ℤ) ∧
        0 ≤ (cpIter k ⟨0, (n1 : ℤ), 0, 0, (n2 : ℤ)⟩).pos2 ∧
        (cpIter k ⟨0, (n1 : ℤ), 0, 0, (n2 : ℤ)⟩).pos2 < (n2 : ℤ)) ∨
       ((cpIter k ⟨0, (n1 : ℤ), 0, 0, (n2 : ℤ)⟩).pos1 = (n1 : ℤ) ∧
        (cpIter k ⟨0, (n1 : ℤ), 0, 0, (n2 : ℤ)⟩).pos2 = (n2 : ℤ))) := by
  intro k
  induction k with
  | zero =>
    intro _
    left
    dsimp only [cpIter]
    refine ⟨le_refl 0, by omega, le_refl 0, by omega⟩
  | succ k ih =>
    intro hk
    have hinv := ih (fun m hm => hk m (by omega))
    have hne := hk k (by omega)
    rw [cpNe_true_iff] at hne
    have hb1 : (cpIter k (⟨0, (n1 : ℤ), 0, 0, (n2 : ℤ)⟩ : CpIterator)).last1 = (n1 : ℤ) :=
      (cpIter_bounds k _).1
    have hb2 : (cpIter k (⟨0, (n1 : ℤ), 0, 0, (n2 : ℤ)⟩ : CpIterator)).first2 = 0 :=
      (cpIter_bounds k _).2.1
    have hb3 : (cpIter k (⟨0, (n1 : ℤ), 0, 0, (n2 : ℤ)⟩ : CpIterator)).last2 = (n2 : ℤ) :=
      (cpIter_bounds k _).2.2
    have hder : 0 ≤ (cpIter k (⟨0, (n1 : ℤ), 0, 0, (n2 : ℤ)⟩ : CpIterator)).pos1 ∧
        (cpIter k (⟨0, (n1 : ℤ), 0, 0, (n2 : ℤ)⟩ : CpIterator)).pos1 < (n1 : ℤ) ∧
        0 ≤ (cpIter k (⟨0, (n1 : ℤ), 0, 0, (n2 : ℤ)⟩ : CpIterator)).pos2 ∧
        (cpIter k (⟨0, (n1 : ℤ), 0, 0, (n2 : ℤ)⟩ : CpIterator)).pos2 < (n2 : ℤ) := by
      rcases hinv with h | h
      · exact h
      · exfalso
        rcases hne with hne | hne
        · exact hne h.1
        · exact hne h.2
    rw [cpIter_succ_right]
    simp only [CpIterator.succ]
    rw [hb1, hb2, hb3]
    split
    · next hcond2 =>
      split
      · next hcond1 =>
        right
        dsimp only
        exact ⟨by omega, rfl⟩
      · next hcond1 =>
        left
        dsimp only
        refine ⟨by omega, by omega, le_refl 0, by omega⟩
    · next hcond2 =>
      left
      dsimp only
      refine ⟨by omega, by omega, by omega, by omega⟩

/-- C9: for `n1, n2 ≥ 1`, every position obtained from `begin()` by unit
advances made while the position still compares unequal to `end()` is either
dereferenceable (`pos1 < last1` and `pos2 < last2`) or exactly the canonical
sentinel (`pos1 = last1` and `pos2 = last2`); the mixed state
`pos1 = last1, pos2 = first2` is never reached. -/
theorem cartesian_iterator_states_valid_or_end (n1 n2 : ℕ) (h1 : 1 ≤ n1) (h2 : 1 ≤ n2)
    (k : ℕ)
    (hk : ∀ m : ℕ, m < k →
      CpIterator.ne (cpIter m ((mkCartesian n1 n2)._begin)) ((mkCartesian n1 n2)._end) = true) :
    ((0 ≤ (cpIter k ((mkCartesian n1 n2)._begin)).pos1 ∧
      (cpIter k ((mkCartesian n1 n2)._begin)).pos1 < (n1 : ℤ) ∧
      0 ≤ (cpIter k ((mkCartesian n1 n2)._begin)).pos2 ∧
      (cpIter k ((mkCartesian n1 n2)._begin)).pos2 < (n2 : ℤ)) ∨
     ((cpIter k ((mkCartesian n1 n2)._begin)).pos1 = (n1 : ℤ) ∧
      (cpIter k ((mkCartesian n1 n2)._begin)).pos2 = (n2 : ℤ))) ∧
    ¬((cpIter k ((mkCartesian n1 n2)._begin)).pos1 = (n1 : ℤ) ∧
      (cpIter k ((mkCartesian n1 n2)._begin)).pos2 =
        (cpIter k ((mkCartesian n1 n2)._begin)).first2) := by
  rw [mkCartesian_begin_pos n1 n2 h1 h2] at hk ⊢
  rw [mkCartesian_end n1 n2] at hk
  have hmain := cp_reach_inv n1 n2 h1 h2 k hk
  have hb2 : (cpIter k (⟨0, (n1 : ℤ), 0, 0, (n2 : ℤ)⟩ : CpIterator)).first2 = 0 :=
    (cpIter_bounds k _).2.1
  rw [hb2]
  refine ⟨hmain, ?_⟩
  rintro ⟨hp1, hp2⟩
  rcases hmain with h | h
  · omega
  · omega

/-- Witness for C9 at `n1 = n2 = 2` after one advance. -/
theorem cartesian_iterator_states_valid_or_end_witness :
    ((0 ≤ (cpIter 1 ((mkCartesian 2 2)._begin)).pos1 ∧
      (cpIter 1 ((mkCartesian 2 2)._begin)).pos1 < ((2 : ℕ) : ℤ) ∧
      0 ≤ (cpIter 1 ((mkCartesian 2 2)._begin)).pos2 ∧
      (cpIter 1 ((mkCartesian 2 2)._begin)).pos2 < ((2 : ℕ) : ℤ)) ∨
     ((cpIter 1 ((mkCartesian 2 2)._begin)).pos1 = ((2 : ℕ) : ℤ) ∧
      (cpIter 1 ((mkCartesian 2 2)._begin)).pos2 = ((2 : ℕ) : ℤ))) ∧
    ¬((cpIter 1 ((mkCartesian 2 2)._begin)).pos1 = ((2 : ℕ) : ℤ) ∧
      (cpIter 1 ((mkCartesian 2 2)._begin)).pos2 =
        (cpIter 1 ((mkCartesian 2 2)._begin)).first2) :=
  cartesian_iterator_states_valid_or_end 2 2 (by norm_num) (by norm_num) 1
    (by intro m hm
        have hm0 : m = 0 := by omega
        subst hm0
        decide)

end PairwiseIterator
